import Mathlib

/-!
Verification development for an e-commerce listing extraction pipeline:
record extraction (HTML pattern/window and JSON strategies), merge
semantics, and completeness-gated export.  Strings are modelled as
`List Char`; each definition follows the corresponding source function.
-/

namespace Pipeline

/-- Whitespace as recognised by Python `str.strip` and the regex `\s`
(Unicode mode): ASCII whitespace, the C1 separators, and the Unicode
space code points. -/
def pyWS (c : Char) : Bool :=
  c.toNat == 32 || c.toNat == 9 || c.toNat == 10 || c.toNat == 13 ||
  c.toNat == 11 || c.toNat == 12 ||
  (28 ≤ c.toNat && c.toNat ≤ 31) || c.toNat == 0x85 ||
  c.toNat == 0xA0 || c.toNat == 0x1680 ||
  (0x2000 ≤ c.toNat && c.toNat ≤ 0x200A) ||
  c.toNat == 0x2028 || c.toNat == 0x2029 ||
  c.toNat == 0x202F || c.toNat == 0x205F || c.toNat == 0x3000

/-- The three non-breaking-space code points named by the character class
of the normalizer's first substitution (U+00A0, U+2009, U+202F). -/
def isNbsp (c : Char) : Bool :=
  c.toNat == 0xA0 || c.toNat == 0x2009 || c.toNat == 0x202F

/-- Python `str.strip()`: drop leading and trailing whitespace. -/
def stripPy (l : List Char) : List Char :=
  ((l.dropWhile pyWS).reverse.dropWhile pyWS).reverse

/-- The substitution `re.sub(r'\s+', ' ', s)`: every maximal run of
whitespace becomes a single ordinary space. -/
def collapseWs : List Char → List Char
  | [] => []
  | [a] => if pyWS a then [' '] else [a]
  | a :: b :: rest =>
    if pyWS a then
      (if pyWS b then [] else [' ']) ++ collapseWs (b :: rest)
    else a :: collapseWs (b :: rest)

/-- The substitution of the normalizer's non-breaking-space character
class: every maximal run of the three code points becomes one space. -/
def replNbspRuns : List Char → List Char
  | [] => []
  | [a] => if isNbsp a then [' '] else [a]
  | a :: b :: rest =>
    if isNbsp a then
      (if isNbsp b then [] else [' ']) ++ replNbspRuns (b :: rest)
    else a :: replNbspRuns (b :: rest)

/-- `clean_text` from the source: empty in, empty out; otherwise strip,
replace non-breaking-space runs, collapse whitespace runs. -/
def cleanText (l : List Char) : List Char :=
  if l = [] then [] else collapseWs (replNbspRuns (stripPy l))

/-- The normalizer as the specification words it: trim leading/trailing
whitespace, replace each non-breaking-space code point with an ordinary
space, collapse runs of whitespace to one space; empty for empty input. -/
def cleanTextSpec (l : List Char) : List Char :=
  if l = [] then []
  else collapseWs ((stripPy l).map fun c => if isNbsp c then ' ' else c)

/-! ## Merge engine (per-identifier accumulation across pages) -/

/-- A per-page partial record as the extractors produce it:
`{'name': ..., 'sku': ..., 'prices': [...]}`. -/
structure PartialRec where
  name : List Char
  sku : List Char
  prices : List (List Char)
deriving DecidableEq

/-- An accumulated record of the run-wide mapping:
`{'name': ..., 'sku': ..., 'prices': [], 'sources': []}`. -/
structure MergedRec where
  name : List Char
  sku : List Char
  prices : List (List Char)
  sources : List (List Char)
deriving DecidableEq

/-- The `setdefault` seed `{'name': '', 'sku': '', 'prices': [], 'sources': []}`. -/
def emptyMerged : MergedRec := ⟨[], [], [], []⟩

/-- First-fill-wins field update: overwrite only when the incoming value
is non-empty and the accumulated one is empty. -/
def firstFill (cur incoming : List Char) : List Char :=
  if incoming ≠ [] ∧ cur = [] then incoming else cur

/-- The price loop: append each incoming non-empty price not already
present, preserving order. -/
def appendUniquePrices (acc : List (List Char)) (ps : List (List Char)) :
    List (List Char) :=
  ps.foldl (fun a p => if p ≠ [] ∧ p ∉ a then a ++ [p] else a) acc

/-- Provenance update: append the file name unless already recorded. -/
def addSource (sources : List (List Char)) (fname : List Char) : List (List Char) :=
  if fname ∈ sources then sources else sources ++ [fname]

/-- One merge step of the accumulation loop (lines updating `entry` from
`data` and the source file name). -/
def mergeRecord (e : MergedRec) (d : PartialRec) (fname : List Char) : MergedRec :=
  { name := firstFill e.name d.name
    sku := firstFill e.sku d.sku
    prices := appendUniquePrices e.prices d.prices
    sources := addSource e.sources fname }

/-- Merging a sequence of (partial record, source) observations for one
identifier, in arrival order, starting from the seed. -/
def mergeSeq (l : List (PartialRec × List Char)) : MergedRec :=
  l.foldl (fun e p => mergeRecord e p.1 p.2) emptyMerged

/-! ## Completeness gate and export (`write_xml_and_log`) -/

/-- One exported `<item>` element: `price1`, `price2`, `name`, `sku`. -/
structure ExportRec where
  price1 : List Char
  price2 : List Char
  name : List Char
  sku : List Char
deriving DecidableEq

/-- One line of the JSONL skip log. -/
structure SkipLogEntry where
  sku : List Char
  missing : List (List Char)
  foundPrice1 : List Char
  foundPrice2 : List Char
  foundName : List Char
  foundSku : List Char
  sources : List (List Char)
  note : List Char
deriving DecidableEq

/-- The numeric value of a digit string, as the sort key `int(x[0])`. -/
def pidKey (l : List Char) : Nat :=
  l.foldl (fun a c => 10 * a + (c.toNat - 48)) 0

/-- Python `int()` on a string: defined exactly on non-empty all-digit
strings (the only shape the extractors produce), yielding its value. -/
def decValue? (l : List Char) : Option Nat :=
  if l = [] then none
  else if l.all (fun c => c.isDigit) then some (pidKey l) else none

/-- First required price: `prices[0] if len(prices) >= 1 else ''` after
truncation to the first two accumulated prices. -/
def gatePrice1 (data : MergedRec) : List Char := (data.prices.take 2).getD 0 []

/-- Second required price after truncation. -/
def gatePrice2 (data : MergedRec) : List Char := (data.prices.take 2).getD 1 []

/-- The fallback substitution `sku = data['sku'] or pid`. -/
def gateSku (pid : List Char) (data : MergedRec) : List Char :=
  if data.sku ≠ [] then data.sku else pid

/-- The `missing` list, collected in source order. -/
def gateMissing (pid : List Char) (data : MergedRec) : List (List Char) :=
  (if gatePrice1 data = [] then ["price1".data] else []) ++
  (if gatePrice2 data = [] then ["price2".data] else []) ++
  (if data.name = [] then ["name".data] else []) ++
  (if gateSku pid data = [] then ["sku".data] else [])

/-- The per-record body of the export loop: derive the first two prices,
the fallback sku, collect missing required fields, and route the record
to exactly one of the export set or the skip log. -/
def gateOutcome (pid : List Char) (data : MergedRec) : ExportRec ⊕ SkipLogEntry :=
  if gateMissing pid data ≠ [] then
    Sum.inr ⟨gateSku pid data, gateMissing pid data, gatePrice1 data, gatePrice2 data,
      data.name, gateSku pid data, data.sources, "skipped - missing fields".data⟩
  else
    Sum.inl ⟨gatePrice1 data, gatePrice2 data, data.name, gateSku pid data⟩

/-- One iteration of the export loop. -/
def gateStep (acc : List ExportRec × List SkipLogEntry)
    (pr : List Char × MergedRec) : List ExportRec × List SkipLogEntry :=
  match gateOutcome pr.1 pr.2 with
  | Sum.inl r => (acc.1 ++ [r], acc.2)
  | Sum.inr e => (acc.1, acc.2 ++ [e])

/-- The export loop of `write_xml_and_log`: records in ascending numeric
identifier order, each routed by the gate; returns the exported items
and the skip-log entries. -/
def writeXmlAndLog (m : List (List Char × MergedRec)) :
    List ExportRec × List SkipLogEntry :=
  (m.mergeSort (fun a b => pidKey a.1 ≤ pidKey b.1)).foldl gateStep ([], [])

/-! ## Pattern/window extraction strategy (regex fallback parsers) -/

/-- Case-insensitive literal prefix test (the product-URL pattern is
compiled with `IGNORECASE`). -/
def startsWithCI : List Char → List Char → Bool
  | [], _ => true
  | _ :: _, [] => false
  | p :: ps, c :: cs => (p.toLower == c.toLower) && startsWithCI ps cs

/-- Characters admitted by the `[^"'>]` class of the product-URL pattern. -/
def notAttrEnd (c : Char) : Bool := !(c == '"' || c == '\'' || c == '>')

/-- Backtracking of `[^"'>]*-(\d+)` inside one class run: the greedy star
selects the last hyphen that is followed by at least one digit; the
capture is the maximal digit run after it.  Returns the number of
consumed characters together with the capture. -/
def lastDashDigits : List Char → Option (Nat × List Char)
  | [] => none
  | c :: cs =>
    match lastDashDigits cs with
    | some (n, ds) => some (n + 1, ds)
    | none =>
      if c == '-' then
        let ds := cs.takeWhile Char.isDigit
        if ds ≠ [] then some (1 + ds.length, ds) else none
      else none

/-- One alternative of the product-URL pattern at the current position:
its literal prefix, then `[^"'>]*-(\d+)`. -/
def tryProductAlt (lit : List Char) (l : List Char) : Option (Nat × List Char) :=
  if startsWithCI lit l then
    match lastDashDigits ((l.drop lit.length).takeWhile notAttrEnd) with
    | some (n, ds) => some (lit.length + n, ds)
    | none => none
  else none

/-- `RE_PRODUCT_ID` of the merge-pipeline script: two alternatives,
`/product/...-digits` preferred over `ozon.ru/product/...-digits`. -/
def matchProductIdGrok (l : List Char) : Option (Nat × List Char) :=
  match tryProductAlt "/product/".data l with
  | some r => some r
  | none => tryProductAlt "ozon.ru/product/".data l

/-- `RE_PRODUCT_ID` of the class-based parser: the single alternative
`/product/...-digits`. -/
def matchProductIdHP (l : List Char) : Option (Nat × List Char) :=
  tryProductAlt "/product/".data l

/-- `finditer` driver: leftmost non-overlapping matches, resuming right
after each match; fuel bounds the scan by the text length. -/
def productIdScan (matchAt : List Char → Option (Nat × List Char)) :
    Nat → Nat → List Char → List (Nat × Nat × List Char)
  | 0, _, _ => []
  | _ + 1, _, [] => []
  | fuel + 1, pos, l@(_ :: rest) =>
    match matchAt l with
    | some (len, ds) =>
      (pos, pos + len, ds) :: productIdScan matchAt fuel (pos + len) (l.drop len)
    | none => productIdScan matchAt fuel (pos + 1) rest

/-- All product-id matches of the merge-pipeline pattern, with start and
end offsets and the digit capture. -/
def productIdMatches (l : List Char) : List (Nat × Nat × List Char) :=
  productIdScan matchProductIdGrok l.length 0 l

/-- All product-id matches of the class-based parser's pattern. -/
def productIdMatchesHP (l : List Char) : List (Nat × Nat × List Char) :=
  productIdScan matchProductIdHP l.length 0 l

/-- The character class `[\d  ]` of the price pattern. -/
def priceClass (c : Char) : Bool :=
  c.isDigit || c.toNat == 0xA0 || c.toNat == 0x2009 || c.toNat == 0x202F

/-- `RE_PRICE.findall`: a maximal class run, an optional single-space
separator, then the currency glyph; scanning is non-overlapping and
leftmost. -/
def priceScan : Nat → List Char → List (List Char)
  | 0, _ => []
  | _ + 1, [] => []
  | fuel + 1, c :: rest =>
    if priceClass c then
      let run := c :: rest.takeWhile priceClass
      let after := rest.dropWhile priceClass
      match after with
      | '₽' :: tl => (run ++ ['₽']) :: priceScan fuel tl
      | ' ' :: '₽' :: tl => (run ++ [' ', '₽']) :: priceScan fuel tl
      | _ => priceScan fuel after
    else priceScan fuel rest

/-- All currency-amount matches in a text. -/
def findPrices (l : List Char) : List (List Char) := priceScan l.length l

/-- Lazy `{lo,hi}?` content scan: from a prefix of `lo` clean characters,
extend minimally until a closing character, rejecting forbidden content
characters; `budget` is the remaining extension allowance `hi - lo`. -/
def lazyScan (bad closer : Char → Bool) : Nat → List Char → List Char → Option (List Char)
  | _, _, [] => none
  | budget, acc, c :: rest =>
    if closer c then some acc
    else if bad c then none
    else
      match budget with
      | 0 => none
      | b + 1 => lazyScan bad closer b (acc ++ [c]) rest

/-- Capture of a lazy `([^X]{lo,hi}?)(closers)` group at the current
position. -/
def lazyCapture (bad closer : Char → Bool) (lo hi : Nat) (l : List Char) :
    Option (List Char) :=
  let pre := l.take lo
  if pre.length < lo then none
  else if pre.any bad then none
  else lazyScan bad closer (hi - lo) pre (l.drop lo)

/-- `re.search` for a literal prefix followed by a lazy capture group:
the leftmost position where the whole pattern matches wins. -/
def searchPattern (lit : List Char) (bad closer : Char → Bool) (lo hi : Nat) :
    List Char → Option (List Char)
  | [] => none
  | c :: rest =>
    if lit.isPrefixOf (c :: rest) then
      match lazyCapture bad closer lo hi ((c :: rest).drop lit.length) with
      | some cap => some cap
      | none => searchPattern lit bad closer lo hi rest
    else searchPattern lit bad closer lo hi rest

/-- The name-pattern chain of the merge-pipeline fallback: `alt="..."`,
`title="..."`, `aria-label="..."` (closed by `"` or `>`, 5–300 lazy),
then a generic `>text<` (10–400 lazy). -/
def grokNameMatch (w : List Char) : Option (List Char) :=
  match searchPattern "alt=\"".data (· == '"') (fun c => c == '"' || c == '>') 5 300 w with
  | some cap => some cap
  | none =>
    match searchPattern "title=\"".data (· == '"') (fun c => c == '"' || c == '>') 5 300 w with
    | some cap => some cap
    | none =>
      match searchPattern "aria-label=\"".data (· == '"') (fun c => c == '"' || c == '>') 5 300 w with
      | some cap => some cap
      | none => searchPattern ">".data (· == '<') (· == '<') 10 400 w

/-- The name-pattern chain of the class-based parser's fallback:
`alt="..."` then `title="..."`, each closed by `"` only. -/
def hpNameMatch (w : List Char) : Option (List Char) :=
  match searchPattern "alt=\"".data (· == '"') (· == '"') 5 300 w with
  | some cap => some cap
  | none => searchPattern "title=\"".data (· == '"') (· == '"') 5 300 w

/-- `RE_SKU.search`: the literal `"sku"`, optional whitespace, a colon,
optional whitespace, then a digit capture. -/
def skuSearch : List Char → Option (List Char)
  | [] => none
  | c :: rest =>
    if ("\"sku\"".data).isPrefixOf (c :: rest) then
      match (rest.drop 4).dropWhile pyWS with
      | ':' :: tl =>
        let ds := (tl.dropWhile pyWS).takeWhile Char.isDigit
        if ds ≠ [] then some ds else skuSearch rest
      | _ => skuSearch rest
    else skuSearch rest

/-- The slice `raw[max(0, start - radius) : end + radius]`. -/
def sliceWindow (l : List Char) (s e radius : Nat) : List Char :=
  (l.take (e + radius)).drop (s - radius)

/-- The `seen`-set comprehension: keep non-empty first occurrences. -/
def dedupNonEmptyAux (seen : List (List Char)) :
    List (List Char) → List (List Char)
  | [] => []
  | p :: rest =>
    if p ≠ [] ∧ p ∉ seen then p :: dedupNonEmptyAux (p :: seen) rest
    else dedupNonEmptyAux seen rest

/-- Association-list lookup modelling `dict` access. -/
def assocFind {β : Type} : List (List Char × β) → List Char → Option β
  | [], _ => none
  | (k, v) :: rest, key => if k = key then some v else assocFind rest key

/-- Association-list update modelling `dict.__setitem__`: replace in
place, else append (Python dicts keep first-insertion order). -/
def assocSet {β : Type} : List (List Char × β) → List Char → β → List (List Char × β)
  | [], key, v => [(key, v)]
  | (k, w) :: rest, key, v =>
    if k = key then (k, v) :: rest else (k, w) :: assocSet rest key v

/-- The extracted name: the cleaned capture of the name-pattern chain,
or empty when no pattern matches. -/
def grokName (w : List Char) : List Char :=
  match grokNameMatch w with
  | some cap => cleanText cap
  | none => []

/-- The record extracted for one product-id match of the merge-pipeline
fallback: name, prices (deduplicated, capped at 2) and sku are all
searched inside the ±4000-character window around the match. -/
@[reducible] def grokRecordAt (raw : List Char) (m : Nat × Nat × List Char) :
    PartialRec :=
  { name := grokName (sliceWindow raw m.1 m.2.1 4000)
    sku := (skuSearch (sliceWindow raw m.1 m.2.1 4000)).getD []
    prices :=
      (dedupNonEmptyAux []
        ((findPrices (sliceWindow raw m.1 m.2.1 4000)).map cleanText)).take 2 }

/-- `parse_html_fallback` of the merge pipeline: for each product-id
match, store the window-extracted record under the identifier. -/
def parseHtmlFallback (raw : List Char) : List (List Char × PartialRec) :=
  (productIdMatches raw).foldl
    (fun items m => assocSet items m.2.2 (grokRecordAt raw m)) []

/-- The literal marker text of the recommended-items region. -/
def markerText : List Char := "Возможно, вам понравится".data

/-- `str.find`: offset of the first occurrence of a substring. -/
def strFindAux (needle : List Char) : Nat → List Char → Option Nat
  | i, [] => if needle.isPrefixOf [] then some i else none
  | i, c :: rest =>
    if needle.isPrefixOf (c :: rest) then some i else strFindAux needle (i + 1) rest

/-- First occurrence offset of `needle` in `l`, if any. -/
def strFind (needle l : List Char) : Option Nat := strFindAux needle 0 l

/-- The recommended-block excision of the class-based fallback: cut the
byte range from 500 before to 10000 after the first marker occurrence. -/
def exciseMarker (l : List Char) : List Char :=
  match strFind markerText l with
  | none => l
  | some r => l.take (r - 500) ++ l.drop (r + 10000)

/-- An item of the class-based fallback's result mapping. -/
structure HPItem where
  name : List Char
  sku : List Char
  prices : List (List Char)
  link : List Char
deriving DecidableEq

/-- The product link: base URL, then `product`, a hyphen, the
identifier, and a trailing slash. -/
def hpLink (pid : List Char) : List Char :=
  "https://www.ozon.ru/product/-".data ++ pid ++ "/".data

/-- The extracted name of the class-based fallback: cleaned capture of
its two-pattern chain, or empty. -/
def hpName (w : List Char) : List Char :=
  match hpNameMatch w with
  | some cap => cleanText cap
  | none => []

/-- The item extracted for one product-id match of the class-based
fallback: name and prices from the ±2000-character window; the sku is
the identifier itself. -/
@[reducible] def hpItemAt (html : List Char) (m : Nat × Nat × List Char) :
    HPItem :=
  { name := hpName (sliceWindow html m.1 m.2.1 2000)
    sku := m.2.2
    prices :=
      (dedupNonEmptyAux []
        ((findPrices (sliceWindow html m.1 m.2.1 2000)).map cleanText)).take 2
    link := hpLink m.2.2 }

/-- The mapping built by `_parse_html_fallback` of the class-based
parser over the marker-excised text. -/
def parseHtmlFallbackHPItems (raw : List Char) : List (List Char × HPItem) :=
  (productIdMatchesHP (exciseMarker raw)).foldl
    (fun items m => assocSet items m.2.2 (hpItemAt (exciseMarker raw) m)) []

/-- The inner loop over one page's parsed mapping: `setdefault` the
identifier to the empty seed, then apply the field-level merge rules. -/
def mergePage (merged : List (List Char × MergedRec))
    (parsed : List (List Char × PartialRec)) (fname : List Char) :
    List (List Char × MergedRec) :=
  parsed.foldl
    (fun m pd =>
      assocSet m pd.1 (mergeRecord ((assocFind m pd.1).getD emptyMerged) pd.2 fname))
    merged

/-- `parse_all_html_files` in its fallback configuration: fold each
page's parsed mapping into the run-wide merged mapping, recording the
file name as provenance. -/
def parseAllHtmlFiles (pages : List (List Char × List Char)) :
    List (List Char × MergedRec) :=
  pages.foldl (fun merged page => mergePage merged (parseHtmlFallback page.2) page.1) []

/-! ## JSON strategy (`_parse_product_item` of the API parser) -/

/-- A JSON value as Python holds it (numbers restricted to integers —
no claim under study involves fractional values). -/
inductive Json where
  | null : Json
  | bool : Bool → Json
  | num : Int → Json
  | str : String → Json
  | arr : List Json → Json
  | obj : List (String × Json) → Json

/-- `dict.get(key, default)`: the stored value when the key is present —
even when that value is empty or `None` — else the default. -/
def jsonGet (o : List (String × Json)) (key : String) (dflt : Json) : Json :=
  match o.find? (fun kv => kv.1 == key) with
  | some kv => kv.2
  | none => dflt

/-- Python truthiness. -/
def pyTruthy : Json → Bool
  | .null => false
  | .bool b => b
  | .num n => n != 0
  | .str s => !(s == "")
  | .arr l => !l.isEmpty
  | .obj o => !o.isEmpty

mutual

/-- Python `repr` of a value. -/
def pyRepr : Json → String
  | .null => "None"
  | .bool true => "True"
  | .bool false => "False"
  | .num n => toString n
  | .str s => "'" ++ s ++ "'"
  | .arr l => "[" ++ pyReprSeq l ++ "]"
  | .obj o => "\x7b" ++ pyReprObj o ++ "\x7d"

/-- Comma-separated `repr`s of a list's elements. -/
def pyReprSeq : List Json → String
  | [] => ""
  | [x] => pyRepr x
  | x :: y :: rest => pyRepr x ++ ", " ++ pyReprSeq (y :: rest)

/-- Comma-separated `repr`s of a dict's entries. -/
def pyReprObj : List (String × Json) → String
  | [] => ""
  | [kv] => "'" ++ kv.1 ++ "': " ++ pyRepr kv.2
  | kv :: kv2 :: rest =>
    "'" ++ kv.1 ++ "': " ++ pyRepr kv.2 ++ ", " ++ pyReprObj (kv2 :: rest)

end

/-- Python `str()`. -/
def pyStr : Json → String
  | .null => "None"
  | .bool true => "True"
  | .bool false => "False"
  | .num n => toString n
  | .str s => s
  | .arr l => "[" ++ pyReprSeq l ++ "]"
  | .obj o => "\x7b" ++ pyReprObj o ++ "\x7d"

/-- Python `a or b`: the first operand when truthy, else the second. -/
def jsonOr (a b : Json) : Json := if pyTruthy a then a else b

/-- `isinstance(x, dict)`. -/
def pyIsDict : Json → Bool
  | .obj _ => true
  | _ => false

/-- `isinstance(x, list)`. -/
def pyIsList : Json → Bool
  | .arr _ => true
  | _ => false

/-- `isinstance(x, (int, float))` — Python `bool` is a subclass of
`int`. -/
def pyIsNum : Json → Bool
  | .num _ => true
  | .bool _ => true
  | _ => false

/-- `isinstance(x, (str, int, float))`. -/
def pyIsScalar : Json → Bool
  | .str _ => true
  | .num _ => true
  | .bool _ => true
  | _ => false

/-- The fields of a dict value (empty for non-dicts). -/
def jsonFields : Json → List (String × Json)
  | .obj o => o
  | _ => []

/-- The numeric-to-text conversion
`if isinstance(x, (int, float)): x = f"{x} ₽"`. -/
def numFmt (v : Json) : Json :=
  if pyIsNum v then .str (pyStr v ++ " ₽") else v

/-- The identifier of an item: `str(item.get('sku', item.get('id', '')))`. -/
def itemIdent (item : List (String × Json)) : String :=
  pyStr (jsonGet item "sku" (jsonGet item "id" (Json.str "")))

/-- The elements of an array value (empty for non-arrays). -/
def jsonArr : Json → List Json
  | .arr l => l
  | _ => []

instance : Inhabited Json := ⟨Json.null⟩

/-- The current/original price extraction of `_parse_product_item`
(variant 1: the `price` object with its nested array and alias fields;
variant 2: scalar `price`; variant 3: top-level alias fields), returning
the two stringified prices. -/
def extractPrices (item : List (String × Json)) : String × String :=
  let price_info := jsonGet item "price" (Json.obj [])
  let cur0 : Json := Json.str ""
  let orig0 : Json := Json.str ""
  let stage1 : Json × Json :=
    if pyIsDict price_info then
      let o := jsonFields price_info
      let price_array := jsonGet o "price" Json.null
      let nested : Json × Json :=
        if pyIsList price_array && !(jsonArr price_array).isEmpty then
          let l := jsonArr price_array
          let price_obj := l.headI
          let cur1 := if pyIsDict price_obj
            then jsonGet (jsonFields price_obj) "text" (Json.str "") else cur0
          let orig1 :=
            if 1 < l.length then
              let old := l.getD 1 Json.null
              if pyIsDict old then jsonGet (jsonFields old) "text" (Json.str "")
              else orig0
            else orig0
          (cur1, orig1)
        else (cur0, orig0)
      let cur2 := if pyTruthy nested.1 then nested.1
        else jsonOr (jsonGet o "text" Json.null)
          (jsonOr (jsonGet o "current" Json.null)
            (jsonOr (jsonGet o "finalPrice" Json.null)
              (jsonOr (jsonGet o "displayPrice" Json.null) (Json.str ""))))
      let orig2 := if pyTruthy nested.2 then nested.2
        else jsonOr (jsonGet o "originalPrice" Json.null)
          (jsonOr (jsonGet o "original" Json.null)
            (jsonOr (jsonGet o "ozonCardPrice" Json.null) (Json.str "")))
      (numFmt cur2, numFmt orig2)
    else if pyIsScalar price_info then
      (.str (if pyIsNum price_info then pyStr price_info ++ " ₽"
        else pyStr price_info), orig0)
    else (cur0, orig0)
  let cur3 := if pyTruthy stage1.1 then stage1.1
    else numFmt (jsonGet item "finalPrice" (jsonGet item "displayPrice" (Json.str "")))
  (pyStr cur3, pyStr stage1.2)

/-- The extracted product of the JSON strategy (name/link and the
opportunistic enrichment fields keep whatever JSON value the item
carried; prices and identifier are stringified by the parser). -/
structure PInfo where
  sku : String
  name : Json
  currentPrice : String
  originalPrice : String
  link : Json
  imageUrl : Json
  rating : String
  reviewsCount : String
  sellerName : Json
  sellerInn : Json
  brand : Json
  category : Json

/-- The link qualification: a truthy relative link is prefixed with the
base URL; a truthy non-string raises `AttributeError` at `startswith`,
which the per-item handler catches (modelled as `none`). -/
def linkOf (item : List (String × Json)) : Option Json :=
  let link := jsonGet item "link" (jsonGet item "url" (Json.str ""))
  if pyTruthy link then
    match link with
    | .str s =>
      some (.str (if s.startsWith "http" then s else "https://www.ozon.ru" ++ s))
    | _ => none
  else some link

/-- Lookup of a key's stored value, `none` when the key is absent. -/
def jsonFind? (o : List (String × Json)) (key : String) : Option Json :=
  (o.find? (fun kv => kv.1 == key)).map (fun kv => kv.2)

/-- `_parse_product_item`: reject when the identifier stringifies empty;
a raising link is caught per item and yields no record; otherwise build
the product record. -/
def parseProductItem (item : List (String × Json)) : Option PInfo :=
  if itemIdent item = "" then none
  else
    match linkOf item with
    | none => none
    | some link =>
      let image0 := jsonGet item "image"
        (jsonGet item "coverImage" (jsonGet item "img" (Json.str "")))
      let sellerInfo := jsonGet item "seller" (Json.obj [])
      some
        { sku := itemIdent item
          name := jsonGet item "name" (jsonGet item "title" (Json.str ""))
          currentPrice := (extractPrices item).1
          originalPrice := (extractPrices item).2
          link := link
          imageUrl := if pyIsDict image0
            then jsonGet (jsonFields image0) "src" (Json.str "") else image0
          rating := pyStr (jsonGet item "rating" (Json.str ""))
          reviewsCount :=
            pyStr (jsonGet item "reviewsCount" (jsonGet item "reviews" (Json.str "")))
          sellerName := if pyIsDict sellerInfo
            then jsonGet (jsonFields sellerInfo) "name" (Json.str "") else Json.str ""
          sellerInn := if pyIsDict sellerInfo
            then jsonGet (jsonFields sellerInfo) "inn" (Json.str "") else Json.str ""
          brand := jsonGet item "brand" (Json.str "")
          category := jsonGet item "category" (Json.str "") }

/-! ## Theorems -/

theorem collapseWs_nil : collapseWs [] = [] := rfl

theorem collapseWs_single (a : Char) :
    collapseWs [a] = if pyWS a then [' '] else [a] := rfl

theorem collapseWs_cons2 (a b : Char) (rest : List Char) :
    collapseWs (a :: b :: rest) =
      if pyWS a then
        (if pyWS b then [] else [' ']) ++ collapseWs (b :: rest)
      else a :: collapseWs (b :: rest) := rfl

theorem replNbspRuns_single (a : Char) :
    replNbspRuns [a] = if isNbsp a then [' '] else [a] := rfl

theorem replNbspRuns_cons2 (a b : Char) (rest : List Char) :
    replNbspRuns (a :: b :: rest) =
      if isNbsp a then
        (if isNbsp b then [] else [' ']) ++ replNbspRuns (b :: rest)
      else a :: replNbspRuns (b :: rest) := rfl

theorem pyWS_of_isNbsp {c : Char} (h : isNbsp c = true) : pyWS c = true := by
  simp only [isNbsp, Bool.or_eq_true, beq_iff_eq] at h
  simp only [pyWS, Bool.or_eq_true, beq_iff_eq, Bool.and_eq_true, decide_eq_true_eq]
  omega

theorem pyWS_space : pyWS ' ' = true := by decide

/-- Output head of the non-breaking-space substitution on input starting
with a non-breaking space: a single ordinary space. -/
theorem replNbspRuns_head_nbsp :
    ∀ (rest : List Char) (b : Char), isNbsp b = true →
      ∃ t, replNbspRuns (b :: rest) = ' ' :: t := by
  intro rest
  induction rest with
  | nil =>
    intro b hb
    exact ⟨[], by rw [replNbspRuns_single, if_pos hb]⟩
  | cons c rest' ih =>
    intro b hb
    by_cases hc : isNbsp c = true
    · obtain ⟨t, ht⟩ := ih c hc
      exact ⟨t, by rw [replNbspRuns_cons2, if_pos hb, if_pos hc, List.nil_append, ht]⟩
    · exact ⟨replNbspRuns (c :: rest'), by
        rw [replNbspRuns_cons2, if_pos hb, if_neg hc, List.singleton_append]⟩

/-- Output head of the non-breaking-space substitution on input starting
with any other character: that character. -/
theorem replNbspRuns_head_other (rest : List Char) (b : Char)
    (hb : ¬ isNbsp b = true) :
    ∃ t, replNbspRuns (b :: rest) = b :: t := by
  cases rest with
  | nil => exact ⟨[], by rw [replNbspRuns_single, if_neg hb]⟩
  | cons c rest' =>
    exact ⟨replNbspRuns (c :: rest'), by rw [replNbspRuns_cons2, if_neg hb]⟩

/-- Collapsing whitespace runs absorbs the pointwise replacement of
non-breaking spaces by ordinary spaces. -/
theorem collapseWs_map_nbsp :
    ∀ l : List Char,
      collapseWs (l.map fun c => if isNbsp c then ' ' else c) = collapseWs l := by
  intro l
  induction l with
  | nil => rfl
  | cons a tail ih =>
    cases tail with
    | nil =>
      by_cases ha : isNbsp a = true
      · simp [collapseWs_single, ha, pyWS_of_isNbsp ha, pyWS_space]
      · simp [collapseWs_single, ha]
    | cons b rest =>
      have hmap : (b :: rest).map (fun c => if isNbsp c then ' ' else c) =
          (if isNbsp b then ' ' else b) :: rest.map (fun c => if isNbsp c then ' ' else c) := rfl
      have hwa : pyWS (if isNbsp a then ' ' else a) = pyWS a := by
        by_cases ha : isNbsp a = true
        · simp [ha, pyWS_space, pyWS_of_isNbsp ha]
        · simp [ha]
      have hwb : pyWS (if isNbsp b then ' ' else b) = pyWS b := by
        by_cases hb : isNbsp b = true
        · simp [hb, pyWS_space, pyWS_of_isNbsp hb]
        · simp [hb]
      by_cases ha : pyWS a = true
      · simp only [List.map_cons, collapseWs_cons2, hwa, hwb, ha]
        rw [← hmap, ih]
        simp [hwb]
      · have hpa : (if isNbsp a then ' ' else a) = a := by
          by_cases ha2 : isNbsp a = true
          · exact absurd (pyWS_of_isNbsp ha2) ha
          · simp [ha2]
        simp only [List.map_cons, collapseWs_cons2, hpa, ha]
        rw [← hmap, ih]
        simp [hwb]

/-- Collapsing whitespace runs absorbs the run-wise replacement of
non-breaking spaces by ordinary spaces. -/
theorem collapseWs_replNbspRuns :
    ∀ l : List Char, collapseWs (replNbspRuns l) = collapseWs l := by
  intro l
  induction l with
  | nil => rfl
  | cons a tail ih =>
    cases tail with
    | nil =>
      by_cases ha : isNbsp a = true
      · simp [replNbspRuns_single, collapseWs_single, ha, pyWS_of_isNbsp ha, pyWS_space]
      · simp [replNbspRuns_single, collapseWs_single, ha]
    | cons b rest =>
      by_cases ha : isNbsp a = true
      · rw [replNbspRuns_cons2, if_pos ha]
        by_cases hb : isNbsp b = true
        · rw [if_pos hb, List.nil_append, ih, collapseWs_cons2,
            if_pos (pyWS_of_isNbsp ha), if_pos (pyWS_of_isNbsp hb), List.nil_append]
        · obtain ⟨t, ht⟩ := replNbspRuns_head_other rest b hb
          rw [if_neg hb, List.singleton_append, ht, collapseWs_cons2, if_pos pyWS_space,
            ← ht, ih, collapseWs_cons2, if_pos (pyWS_of_isNbsp ha)]
      · rw [replNbspRuns_cons2, if_neg ha]
        by_cases hb : isNbsp b = true
        · obtain ⟨t, ht⟩ := replNbspRuns_head_nbsp rest b hb
          rw [ht, collapseWs_cons2, pyWS_space, ← ht, ih, collapseWs_cons2,
            pyWS_of_isNbsp hb]
        · obtain ⟨t, ht⟩ := replNbspRuns_head_other rest b hb
          rw [ht, collapseWs_cons2, ← ht, ih, collapseWs_cons2]

theorem foldl_mergeRecord_name (l : List (PartialRec × List Char)) :
    ∀ e : MergedRec,
      (l.foldl (fun e p => mergeRecord e p.1 p.2) e).name =
        l.foldl (fun n p => firstFill n p.1.name) e.name := by
  induction l with
  | nil => intro e; rfl
  | cons hd tl ih => intro e; exact ih (mergeRecord e hd.1 hd.2)

theorem foldl_mergeRecord_sku (l : List (PartialRec × List Char)) :
    ∀ e : MergedRec,
      (l.foldl (fun e p => mergeRecord e p.1 p.2) e).sku =
        l.foldl (fun n p => firstFill n p.1.sku) e.sku := by
  induction l with
  | nil => intro e; rfl
  | cons hd tl ih => intro e; exact ih (mergeRecord e hd.1 hd.2)

theorem foldl_mergeRecord_prices (l : List (PartialRec × List Char)) :
    ∀ e : MergedRec,
      (l.foldl (fun e p => mergeRecord e p.1 p.2) e).prices =
        l.foldl (fun a p => appendUniquePrices a p.1.prices) e.prices := by
  induction l with
  | nil => intro e; rfl
  | cons hd tl ih => intro e; exact ih (mergeRecord e hd.1 hd.2)

theorem foldl_mergeRecord_sources (l : List (PartialRec × List Char)) :
    ∀ e : MergedRec,
      (l.foldl (fun e p => mergeRecord e p.1 p.2) e).sources =
        l.foldl (fun s p => addSource s p.2) e.sources := by
  induction l with
  | nil => intro e; rfl
  | cons hd tl ih => intro e; exact ih (mergeRecord e hd.1 hd.2)

/-- Membership in the price accumulator: an element is there iff it was
already there or is a non-empty incoming price. -/
theorem mem_appendUniquePrices (ps : List (List Char)) :
    ∀ (acc : List (List Char)) (x : List Char),
      x ∈ appendUniquePrices acc ps ↔ x ∈ acc ∨ (x ≠ [] ∧ x ∈ ps) := by
  induction ps with
  | nil => intro acc x; simp [appendUniquePrices]
  | cons p rest ih =>
    intro acc x
    show x ∈ appendUniquePrices (if p ≠ [] ∧ p ∉ acc then acc ++ [p] else acc) rest ↔ _
    rw [ih]
    by_cases hp : p ≠ [] ∧ p ∉ acc
    · rw [if_pos hp]
      simp only [List.mem_append, List.mem_singleton, List.mem_cons,
        List.not_mem_nil, or_false]
      constructor
      · rintro ((h | rfl) | ⟨hne, hmem⟩)
        · exact Or.inl h
        · exact Or.inr ⟨hp.1, Or.inl rfl⟩
        · exact Or.inr ⟨hne, Or.inr hmem⟩
      · rintro (h | ⟨hne, (rfl | hmem)⟩)
        · exact Or.inl (Or.inl h)
        · exact Or.inl (Or.inr rfl)
        · exact Or.inr ⟨hne, hmem⟩
    · rw [if_neg hp]
      simp only [List.mem_cons]
      constructor
      · rintro (h | ⟨hne, hmem⟩)
        · exact Or.inl h
        · exact Or.inr ⟨hne, Or.inr hmem⟩
      · rintro (h | ⟨hne, (rfl | hmem)⟩)
        · exact Or.inl h
        · rcases Decidable.not_and_iff_or_not.mp hp with h1 | h2
          · exact absurd hne h1
          · exact Or.inl (Decidable.not_not.mp h2)
        · exact Or.inr ⟨hne, hmem⟩

/-- Appending prices that are all already present (or empty) changes
nothing. -/
theorem appendUniquePrices_noop (ps : List (List Char)) :
    ∀ acc : List (List Char), (∀ p ∈ ps, p ≠ [] → p ∈ acc) →
      appendUniquePrices acc ps = acc := by
  induction ps with
  | nil => intro acc _; rfl
  | cons p rest ih =>
    intro acc h
    show appendUniquePrices (if p ≠ [] ∧ p ∉ acc then acc ++ [p] else acc) rest = acc
    have hp : ¬ (p ≠ [] ∧ p ∉ acc) := by
      rintro ⟨hne, hnm⟩
      exact hnm (h p (List.mem_cons_self p rest) hne)
    rw [if_neg hp]
    exact ih acc fun q hq hne => h q (List.mem_cons_of_mem p hq) hne

theorem firstFill_eq_nil_iff (cur incoming : List Char) :
    firstFill cur incoming = [] ↔ cur = [] ∧ incoming = [] := by
  unfold firstFill
  by_cases hi : incoming = []
  · simp [hi]
  · by_cases hc : cur = [] <;> simp [hi, hc]

theorem firstFill_idem (cur incoming : List Char) :
    firstFill (firstFill cur incoming) incoming = firstFill cur incoming := by
  by_cases h : incoming ≠ [] ∧ cur = []
  · have h1 : firstFill cur incoming = incoming := by rw [firstFill, if_pos h]
    rw [h1, firstFill, if_neg (by rintro ⟨a, b⟩; exact a b)]
  · have h1 : firstFill cur incoming = cur := by rw [firstFill, if_neg h]
    rw [h1, firstFill, if_neg h]

theorem addSource_mem (sources : List (List Char)) (fname : List Char) :
    fname ∈ addSource sources fname := by
  unfold addSource
  by_cases h : fname ∈ sources
  · simp [h]
  · simp [h]

theorem mem_addSource_iff (x : List Char) (sources : List (List Char))
    (fname : List Char) :
    x ∈ addSource sources fname ↔ x ∈ sources ∨ x = fname := by
  unfold addSource
  by_cases h : fname ∈ sources
  · simp only [if_pos h]
    constructor
    · exact Or.inl
    · rintro (hx | rfl) <;> [exact hx; exact h]
  · simp [if_neg h]

theorem addSource_idem (sources : List (List Char)) (fname : List Char) :
    addSource (addSource sources fname) fname = addSource sources fname := by
  rw [addSource, if_pos (addSource_mem sources fname)]

theorem appendUniquePrices_idem (acc : List (List Char)) (ps : List (List Char)) :
    appendUniquePrices (appendUniquePrices acc ps) ps = appendUniquePrices acc ps := by
  refine appendUniquePrices_noop ps _ fun p hp hne => ?_
  exact (mem_appendUniquePrices ps acc p).mpr (Or.inr ⟨hne, hp⟩)

/-- C7: merging the same partial record twice in a row changes nothing
after the first application — name, sku, prices (contents and order) and
sources are all stable. -/
theorem merge_idempotent (e : MergedRec) (d : PartialRec) (fname : List Char) :
    mergeRecord (mergeRecord e d fname) d fname = mergeRecord e d fname := by
  unfold mergeRecord
  simp [firstFill_idem, addSource_idem, appendUniquePrices_idem]

/-- The first-fill fold is empty iff the seed and all arrivals are empty. -/
theorem ffFold_eq_nil_iff (l : List (List Char)) :
    ∀ e : List Char, l.foldl firstFill e = [] ↔ e = [] ∧ ∀ x ∈ l, x = [] := by
  induction l with
  | nil => intro e; simp
  | cons x rest ih =>
    intro e
    show rest.foldl firstFill (firstFill e x) = [] ↔ _
    rw [ih, firstFill_eq_nil_iff]
    constructor
    · rintro ⟨⟨he, hx⟩, hrest⟩
      exact ⟨he, fun y hy => by
        rcases List.mem_cons.mp hy with rfl | hy'
        · exact hx
        · exact hrest y hy'⟩
    · rintro ⟨he, hall⟩
      exact ⟨⟨he, hall x (List.mem_cons_self x rest)⟩,
        fun y hy => hall y (List.mem_cons_of_mem x hy)⟩

/-- When every non-empty arrival equals `v`, the first-fill fold stays in
`{[], v}`. -/
theorem ffFold_mem_pair (v : List Char) (l : List (List Char)) :
    ∀ e : List Char, (∀ x ∈ l, x ≠ [] → x = v) → (e = [] ∨ e = v) →
      l.foldl firstFill e = [] ∨ l.foldl firstFill e = v := by
  induction l with
  | nil => intro e _ he; exact he
  | cons x rest ih =>
    intro e hall he
    show rest.foldl firstFill (firstFill e x) = [] ∨ _
    refine ih (firstFill e x) (fun y hy => hall y (List.mem_cons_of_mem x hy)) ?_
    by_cases hx : x = []
    · rw [firstFill, if_neg (by simp [hx])]; exact he
    · have hxv : x = v := hall x (List.mem_cons_self x rest) hx
      unfold firstFill
      by_cases hcond : x ≠ [] ∧ e = []
      · rw [if_pos hcond]; exact Or.inr hxv
      · rw [if_neg hcond]; exact he

/-- Permutation invariance of the first-fill fold when all non-empty
arrivals agree. -/
theorem ffFold_perm (ln ln' : List (List Char)) (hp : ln'.Perm ln)
    (hagree : ∀ x ∈ ln, ∀ y ∈ ln, x ≠ [] → y ≠ [] → x = y) :
    ln'.foldl firstFill [] = ln.foldl firstFill [] := by
  by_cases hall : ∀ x ∈ ln, x = []
  · rw [(ffFold_eq_nil_iff ln []).mpr ⟨rfl, hall⟩,
      (ffFold_eq_nil_iff ln' []).mpr ⟨rfl, fun x hx => hall x (hp.mem_iff.mp hx)⟩]
  · push_neg at hall
    obtain ⟨v, hv, hvne⟩ := hall
    have hcomm : ∀ x ∈ ln, x ≠ [] → x = v :=
      fun x hx hxne => hagree x hx v hv hxne hvne
    have h1 : ln.foldl firstFill [] = [] ∨ ln.foldl firstFill [] = v :=
      ffFold_mem_pair v ln [] hcomm (Or.inl rfl)
    have h2 : ln'.foldl firstFill [] = [] ∨ ln'.foldl firstFill [] = v :=
      ffFold_mem_pair v ln' [] (fun x hx => hcomm x (hp.mem_iff.mp hx)) (Or.inl rfl)
    have hne1 : ln.foldl firstFill [] ≠ [] := by
      rw [Ne, ffFold_eq_nil_iff]
      rintro ⟨-, hallnil⟩
      exact hvne (hallnil v hv)
    have hne2 : ln'.foldl firstFill [] ≠ [] := by
      rw [Ne, ffFold_eq_nil_iff]
      rintro ⟨-, hallnil⟩
      exact hvne (hallnil v (hp.mem_iff.mpr hv))
    rw [h1.resolve_left hne1, h2.resolve_left hne2]

/-- Membership in the accumulated price list of a merge sequence. -/
theorem mem_mergeSeq_prices (l : List (PartialRec × List Char)) (x : List Char) :
    x ∈ (mergeSeq l).prices ↔ x ≠ [] ∧ ∃ p ∈ l, x ∈ p.1.prices := by
  have key : ∀ (m : List (PartialRec × List Char)) (acc : List (List Char)),
      x ∈ m.foldl (fun a p => appendUniquePrices a p.1.prices) acc ↔
        x ∈ acc ∨ (x ≠ [] ∧ ∃ p ∈ m, x ∈ p.1.prices) := by
    intro m
    induction m with
    | nil => intro acc; simp
    | cons hd tl ih =>
      intro acc
      show x ∈ tl.foldl _ (appendUniquePrices acc hd.1.prices) ↔ _
      rw [ih, mem_appendUniquePrices]
      constructor
      · rintro ((h | ⟨hne, hmem⟩) | ⟨hne, p, hp, hmem⟩)
        · exact Or.inl h
        · exact Or.inr ⟨hne, hd, List.mem_cons_self hd tl, hmem⟩
        · exact Or.inr ⟨hne, p, List.mem_cons_of_mem hd hp, hmem⟩
      · rintro (h | ⟨hne, p, hp, hmem⟩)
        · exact Or.inl (Or.inl h)
        · rcases List.mem_cons.mp hp with rfl | hp'
          · exact Or.inl (Or.inr ⟨hne, hmem⟩)
          · exact Or.inr ⟨hne, p, hp', hmem⟩
  rw [mergeSeq, foldl_mergeRecord_prices, key]
  simp [emptyMerged]

/-- Membership in the provenance list of a merge sequence. -/
theorem mem_mergeSeq_sources (l : List (PartialRec × List Char)) (x : List Char) :
    x ∈ (mergeSeq l).sources ↔ ∃ p ∈ l, x = p.2 := by
  have key : ∀ (m : List (PartialRec × List Char)) (acc : List (List Char)),
      x ∈ m.foldl (fun s p => addSource s p.2) acc ↔
        x ∈ acc ∨ ∃ p ∈ m, x = p.2 := by
    intro m
    induction m with
    | nil => intro acc; simp
    | cons hd tl ih =>
      intro acc
      show x ∈ tl.foldl _ (addSource acc hd.2) ↔ _
      rw [ih, mem_addSource_iff]
      constructor
      · rintro ((h | rfl) | ⟨p, hp, hx⟩)
        · exact Or.inl h
        · exact Or.inr ⟨hd, List.mem_cons_self hd tl, rfl⟩
        · exact Or.inr ⟨p, List.mem_cons_of_mem hd hp, hx⟩
      · rintro (h | ⟨p, hp, hx⟩)
        · exact Or.inl (Or.inl h)
        · rcases List.mem_cons.mp hp with rfl | hp'
          · exact Or.inl (Or.inr hx)
          · exact Or.inr ⟨p, hp', hx⟩
  rw [mergeSeq, foldl_mergeRecord_sources, key]
  simp [emptyMerged]

/-- C3 counterexample: two partial records for the same identifier with
different non-empty names, merged in the two arrival orders, give
different final names (first-fill-wins is order-dependent). -/
theorem merge_order_name_counterexample :
    ([((⟨['y'], [], []⟩ : PartialRec), ['b']), (⟨['x'], [], []⟩, ['a'])]).Perm
      [((⟨['x'], [], []⟩ : PartialRec), ['a']), (⟨['y'], [], []⟩, ['b'])] ∧
    (mergeSeq [(⟨['y'], [], []⟩, ['b']), (⟨['x'], [], []⟩, ['a'])]).name ≠
      (mergeSeq [(⟨['x'], [], []⟩, ['a']), (⟨['y'], [], []⟩, ['b'])]).name := by
  constructor
  · exact List.Perm.swap _ _ _
  · decide

/-- C3 (amended): merging the same multiset of partial records in any
permutation of arrival order always yields the same set of prices and
the same set of sources — with no condition on the incoming records —
while the final name (resp. sku) is permutation-invariant only under
the additional hypothesis that all non-empty incoming names (resp.
skus) agree. -/
theorem mergeSeq_perm_invariant (l l' : List (PartialRec × List Char))
    (hperm : l'.Perm l) :
    (∀ x, x ∈ (mergeSeq l').prices ↔ x ∈ (mergeSeq l).prices) ∧
    (∀ x, x ∈ (mergeSeq l').sources ↔ x ∈ (mergeSeq l).sources) ∧
    ((∀ p ∈ l, ∀ q ∈ l, p.1.name ≠ [] → q.1.name ≠ [] → p.1.name = q.1.name) →
      (mergeSeq l').name = (mergeSeq l).name) ∧
    ((∀ p ∈ l, ∀ q ∈ l, p.1.sku ≠ [] → q.1.sku ≠ [] → p.1.sku = q.1.sku) →
      (mergeSeq l').sku = (mergeSeq l).sku) := by
  have ename : ∀ m : List (PartialRec × List Char),
      (mergeSeq m).name = (m.map fun p => p.1.name).foldl firstFill [] := by
    intro m
    rw [mergeSeq, foldl_mergeRecord_name, List.foldl_map]
    rfl
  have esku : ∀ m : List (PartialRec × List Char),
      (mergeSeq m).sku = (m.map fun p => p.1.sku).foldl firstFill [] := by
    intro m
    rw [mergeSeq, foldl_mergeRecord_sku, List.foldl_map]
    rfl
  refine ⟨?_, ?_, ?_, ?_⟩
  · intro x
    rw [mem_mergeSeq_prices, mem_mergeSeq_prices]
    constructor
    · rintro ⟨hne, p, hp, hx⟩
      exact ⟨hne, p, hperm.mem_iff.mp hp, hx⟩
    · rintro ⟨hne, p, hp, hx⟩
      exact ⟨hne, p, hperm.mem_iff.mpr hp, hx⟩
  · intro x
    rw [mem_mergeSeq_sources, mem_mergeSeq_sources]
    constructor
    · rintro ⟨p, hp, hx⟩
      exact ⟨p, hperm.mem_iff.mp hp, hx⟩
    · rintro ⟨p, hp, hx⟩
      exact ⟨p, hperm.mem_iff.mpr hp, hx⟩
  · intro hname
    rw [ename, ename]
    refine ffFold_perm _ _ (hperm.map _) ?_
    intro x hx y hy hxne hyne
    obtain ⟨p, hp, rfl⟩ := List.mem_map.mp hx
    obtain ⟨q, hq, rfl⟩ := List.mem_map.mp hy
    exact hname p hp q hq hxne hyne
  · intro hsku
    rw [esku, esku]
    refine ffFold_perm _ _ (hperm.map _) ?_
    intro x hx y hy hxne hyne
    obtain ⟨p, hp, rfl⟩ := List.mem_map.mp hx
    obtain ⟨q, hq, rfl⟩ := List.mem_map.mp hy
    exact hsku p hp q hq hxne hyne

/-- Witness for the amended C3 theorem: the price-set invariance at a
concrete permuted pair whose records carry different non-empty names,
and the name invariance at a concrete agreeing pair. -/
theorem mergeSeq_perm_invariant_witness :
    (['1'] ∈ (mergeSeq [((⟨['x'], [], [['1']]⟩ : PartialRec), ['b']),
        (⟨['y'], [], []⟩, ['a'])]).prices ↔
      ['1'] ∈ (mergeSeq [((⟨['y'], [], []⟩ : PartialRec), ['a']),
        (⟨['x'], [], [['1']]⟩, ['b'])]).prices) ∧
    (mergeSeq [((⟨['x'], [], []⟩ : PartialRec), ['b']),
        (⟨['x'], [], []⟩, ['a'])]).name =
      (mergeSeq [((⟨['x'], [], []⟩ : PartialRec), ['a']),
        (⟨['x'], [], []⟩, ['b'])]).name :=
  ⟨(mergeSeq_perm_invariant _ _ (List.Perm.swap _ _ _)).1 ['1'],
   (mergeSeq_perm_invariant _ _ (List.Perm.swap _ _ _)).2.2.1 (by decide)⟩

theorem gateStep_lengths (acc : List ExportRec × List SkipLogEntry)
    (pr : List Char × MergedRec) :
    (gateStep acc pr).1.length + (gateStep acc pr).2.length =
      acc.1.length + acc.2.length + 1 := by
  cases h : gateOutcome pr.1 pr.2 <;> simp [gateStep, h] <;> omega

theorem gateFold_lengths (l : List (List Char × MergedRec)) :
    ∀ acc : List ExportRec × List SkipLogEntry,
      (l.foldl gateStep acc).1.length + (l.foldl gateStep acc).2.length =
        acc.1.length + acc.2.length + l.length := by
  induction l with
  | nil => intro acc; simp
  | cons hd tl ih =>
    intro acc
    have h1 := ih (gateStep acc hd)
    have h2 := gateStep_lengths acc hd
    simp only [List.foldl_cons, List.length_cons] at h1 ⊢
    omega

/-- C4: the completeness gate is deterministic and total — each merged
record yields exactly one outcome (an export element or a skip-log
entry), and the number of exported records plus the number of skip-log
entries equals the number of merged records. -/
theorem gate_total_exactly_one :
    (∀ m : List (List Char × MergedRec),
      (writeXmlAndLog m).1.length + (writeXmlAndLog m).2.length = m.length) ∧
    (∀ (pid : List Char) (data : MergedRec),
      (∃ r, gateOutcome pid data = Sum.inl r) ↔
        ¬ ∃ e, gateOutcome pid data = Sum.inr e) := by
  constructor
  · intro m
    rw [writeXmlAndLog, gateFold_lengths]
    simp
  · intro pid data
    by_cases h : gateMissing pid data = []
    · have hout : gateOutcome pid data =
          Sum.inl ⟨gatePrice1 data, gatePrice2 data, data.name, gateSku pid data⟩ := by
        rw [gateOutcome, if_neg (by simp [h])]
      constructor
      · rintro - ⟨e, he⟩
        rw [hout] at he
        cases he
      · intro _
        exact ⟨_, hout⟩
    · have hout : gateOutcome pid data =
          Sum.inr ⟨gateSku pid data, gateMissing pid data, gatePrice1 data,
            gatePrice2 data, data.name, gateSku pid data, data.sources,
            "skipped - missing fields".data⟩ := by
        rw [gateOutcome, if_pos h]
      constructor
      · rintro ⟨r, hr⟩
        rw [hout] at hr
        cases hr
      · intro hn
        exact absurd ⟨_, hout⟩ hn

theorem gateSku_ne_nil (pid : List Char) (data : MergedRec) (h : pid ≠ []) :
    gateSku pid data ≠ [] := by
  unfold gateSku
  by_cases hs : data.sku ≠ []
  · rw [if_pos hs]; exact hs
  · rw [if_neg hs]; exact h

theorem sku_not_mem_gateMissing (pid : List Char) (data : MergedRec)
    (h : pid ≠ []) : "sku".data ∉ gateMissing pid data := by
  have hs : gateSku pid data ≠ [] := gateSku_ne_nil pid data h
  by_cases h1 : gatePrice1 data = [] <;> by_cases h2 : gatePrice2 data = [] <;>
    by_cases h3 : data.name = [] <;>
    simp [gateMissing, h1, h2, h3, hs]

/-- Provenance of exported records: every element of the fold's export
list is either inherited or the gate's export outcome of a processed
record. -/
theorem mem_gateFold_exported (l : List (List Char × MergedRec)) :
    ∀ (acc : List ExportRec × List SkipLogEntry) (r : ExportRec),
      r ∈ (l.foldl gateStep acc).1 →
        r ∈ acc.1 ∨ ∃ pr ∈ l, gateOutcome pr.1 pr.2 = Sum.inl r := by
  induction l with
  | nil => intro acc r hr; exact Or.inl hr
  | cons hd tl ih =>
    intro acc r hr
    rw [List.foldl_cons] at hr
    rcases ih (gateStep acc hd) r hr with hacc | ⟨pr, hpr, hout⟩
    · cases hout : gateOutcome hd.1 hd.2 with
      | inl r' =>
        rw [gateStep, hout] at hacc
        rcases List.mem_append.mp hacc with hin | hin
        · exact Or.inl hin
        · rw [List.mem_singleton] at hin
          exact Or.inr ⟨hd, List.mem_cons_self hd tl, hin ▸ hout⟩
      | inr e' =>
        rw [gateStep, hout] at hacc
        exact Or.inl hacc
    · exact Or.inr ⟨pr, List.mem_cons_of_mem hd hpr, hout⟩

/-- Provenance of skip-log entries. -/
theorem mem_gateFold_skipped (l : List (List Char × MergedRec)) :
    ∀ (acc : List ExportRec × List SkipLogEntry) (e : SkipLogEntry),
      e ∈ (l.foldl gateStep acc).2 →
        e ∈ acc.2 ∨ ∃ pr ∈ l, gateOutcome pr.1 pr.2 = Sum.inr e := by
  induction l with
  | nil => intro acc e he; exact Or.inl he
  | cons hd tl ih =>
    intro acc e he
    rw [List.foldl_cons] at he
    rcases ih (gateStep acc hd) e he with hacc | ⟨pr, hpr, hout⟩
    · cases hout : gateOutcome hd.1 hd.2 with
      | inl r' =>
        rw [gateStep, hout] at hacc
        exact Or.inl hacc
      | inr e' =>
        rw [gateStep, hout] at hacc
        rcases List.mem_append.mp hacc with hin | hin
        · exact Or.inl hin
        · rw [List.mem_singleton] at hin
          exact Or.inr ⟨hd, List.mem_cons_self hd tl, hin ▸ hout⟩
    · exact Or.inr ⟨pr, List.mem_cons_of_mem hd hpr, hout⟩

/-- C6: for records with a non-empty identifier the gate derives sku as
the merged sku when non-empty else the identifier, so every exported
record carries a non-empty sku, `"sku"` never occurs in a skip-log
entry's missing list, and the substituted value is recorded in both the
exported element and the skip-log entry. -/
theorem sku_fallback_invariant :
    (∀ (pid : List Char) (data : MergedRec), pid ≠ [] →
      gateSku pid data ≠ [] ∧ "sku".data ∉ gateMissing pid data ∧
      (∀ r, gateOutcome pid data = Sum.inl r → r.sku = gateSku pid data) ∧
      (∀ e, gateOutcome pid data = Sum.inr e →
        e.sku = gateSku pid data ∧ e.foundSku = gateSku pid data ∧
        "sku".data ∉ e.missing)) ∧
    (∀ m : List (List Char × MergedRec), (∀ pr ∈ m, pr.1 ≠ []) →
      (∀ r ∈ (writeXmlAndLog m).1, r.sku ≠ []) ∧
      (∀ e ∈ (writeXmlAndLog m).2, "sku".data ∉ e.missing)) := by
  have hmain : ∀ (pid : List Char) (data : MergedRec), pid ≠ [] →
      gateSku pid data ≠ [] ∧ "sku".data ∉ gateMissing pid data ∧
      (∀ r, gateOutcome pid data = Sum.inl r → r.sku = gateSku pid data) ∧
      (∀ e, gateOutcome pid data = Sum.inr e →
        e.sku = gateSku pid data ∧ e.foundSku = gateSku pid data ∧
        "sku".data ∉ e.missing) := by
    intro pid data hpid
    refine ⟨gateSku_ne_nil pid data hpid, sku_not_mem_gateMissing pid data hpid, ?_, ?_⟩
    · intro r hr
      by_cases h : gateMissing pid data ≠ []
      · rw [gateOutcome, if_pos h] at hr; cases hr
      · rw [gateOutcome, if_neg h] at hr
        cases hr
        rfl
    · intro e he
      by_cases h : gateMissing pid data ≠ []
      · rw [gateOutcome, if_pos h] at he
        cases he
        exact ⟨rfl, rfl, sku_not_mem_gateMissing pid data hpid⟩
      · rw [gateOutcome, if_neg h] at he; cases he
  refine ⟨hmain, ?_⟩
  intro m hm
  constructor
  · intro r hr
    rw [writeXmlAndLog] at hr
    rcases mem_gateFold_exported _ ([], []) r hr with hacc | ⟨pr, hpr, hout⟩
    · cases hacc
    · have hpr' : pr ∈ m := List.mem_mergeSort.mp hpr
      have hpid : pr.1 ≠ [] := hm pr hpr'
      have := (hmain pr.1 pr.2 hpid).2.2.1 r hout
      rw [this]
      exact gateSku_ne_nil pr.1 pr.2 hpid
  · intro e he
    rw [writeXmlAndLog] at he
    rcases mem_gateFold_skipped _ ([], []) e he with hacc | ⟨pr, hpr, hout⟩
    · cases hacc
    · have hpr' : pr ∈ m := List.mem_mergeSort.mp hpr
      have hpid : pr.1 ≠ [] := hm pr hpr'
      have := (hmain pr.1 pr.2 hpid).2.2.2 e hout
      exact this.2.2

/-- Witness for C6 at a concrete record with empty merged sku. -/
theorem sku_fallback_invariant_witness :
    "sku".data ∉ gateMissing ['1'] ⟨[], [], [], []⟩ :=
  (sku_fallback_invariant.1 ['1'] ⟨[], [], [], []⟩ (by decide)).2.1

theorem assocSet_nil {β : Type} (k : List Char) (v : β) :
    assocSet [] k v = [(k, v)] := rfl

theorem assocSet_cons {β : Type} (k₀ : List Char) (w : β)
    (rest : List (List Char × β)) (k : List Char) (v : β) :
    assocSet ((k₀, w) :: rest) k v =
      if k₀ = k then (k₀, v) :: rest else (k₀, w) :: assocSet rest k v := rfl

theorem assocFind_assocSet_self {β : Type} (m : List (List Char × β))
    (k : List Char) (v : β) : assocFind (assocSet m k v) k = some v := by
  induction m with
  | nil => simp [assocSet, assocFind]
  | cons hd rest ih =>
    obtain ⟨k₀, w⟩ := hd
    by_cases h : k₀ = k
    · subst h; simp [assocSet, assocFind]
    · simp [assocSet, assocFind, h, ih]

theorem assocFind_assocSet_ne {β : Type} (m : List (List Char × β))
    (k v k' : _) (h : ¬ k = k') :
    assocFind (assocSet m k v) k' = assocFind m k' := by
  induction m with
  | nil => simp [assocSet, assocFind, h]
  | cons hd rest ih =>
    obtain ⟨k₀, w⟩ := hd
    by_cases h0 : k₀ = k
    · subst h0
      simp [assocSet, assocFind, h]
    · by_cases h1 : k₀ = k'
      · subst h1; simp [assocSet, assocFind, h0]
      · simp [assocSet, assocFind, h0, h1, ih]

/-- Lookup after a fold of keyed inserts: the last insert for the key
wins, else the initial mapping answers. -/
theorem assocFind_foldl_set {α β : Type} (key : α → List Char) (val : α → β)
    (l : List α) :
    ∀ (init : List (List Char × β)) (k : List Char),
      assocFind (l.foldl (fun items a => assocSet items (key a) (val a)) init) k =
        match l.reverse.find? (fun a => decide (key a = k)) with
        | some a => some (val a)
        | none => assocFind init k := by
  induction l with
  | nil => intro init k; rfl
  | cons hd tl ih =>
    intro init k
    rw [List.foldl_cons, ih, List.reverse_cons, List.find?_append]
    cases htl : tl.reverse.find? (fun a => decide (key a = k)) with
    | some a => simp
    | none =>
      by_cases hk : key hd = k
      · have h1 : List.find? (fun a => decide (key a = k)) [hd] = some hd := by
          simp [List.find?, hk]
        rw [Option.none_or, h1]
        subst hk
        exact assocFind_assocSet_self init (key hd) (val hd)
      · have h1 : List.find? (fun a => decide (key a = k)) [hd] = none := by
          simp [List.find?, hk]
        rw [Option.none_or, h1]
        exact assocFind_assocSet_ne init (key hd) (val hd) k hk

/-- Presence in the folded mapping (from an empty start) is exactly
having been inserted. -/
theorem assocFind_foldl_set_isSome {α β : Type} (key : α → List Char) (val : α → β)
    (l : List α) (k : List Char) :
    (assocFind (l.foldl (fun items a => assocSet items (key a) (val a)) []) k).isSome
      = true ↔ ∃ a ∈ l, key a = k := by
  rw [assocFind_foldl_set]
  cases hf : l.reverse.find? (fun a => decide (key a = k)) with
  | some a =>
    have hp : key a = k := by simpa using List.find?_some hf
    simp only [Option.isSome_some, true_iff]
    exact ⟨a, List.mem_reverse.mp (List.mem_of_find?_eq_some hf), hp⟩
  | none =>
    simp only [assocFind, Option.isSome_none, Bool.false_eq_true, false_iff]
    rintro ⟨a, ha, hk⟩
    have := List.find?_eq_none.mp hf a (List.mem_reverse.mpr ha)
    simp [hk] at this

/-- Values of the folded mapping (from an empty start) are values of
inserted entries with the looked-up key. -/
theorem assocFind_foldl_set_val {α β : Type} (key : α → List Char) (val : α → β)
    (l : List α) (k : List Char) (v : β)
    (h : assocFind (l.foldl (fun items a => assocSet items (key a) (val a)) []) k
      = some v) :
    ∃ a ∈ l, key a = k ∧ v = val a := by
  rw [assocFind_foldl_set] at h
  cases hf : l.reverse.find? (fun a => decide (key a = k)) with
  | some a =>
    have hp : key a = k := by simpa using List.find?_some hf
    rw [hf] at h
    exact ⟨a, List.mem_reverse.mp (List.mem_of_find?_eq_some hf), hp,
      (Option.some_inj.mp h).symm⟩
  | none =>
    rw [hf] at h
    cases h

theorem keys_assocSet {β : Type} (m : List (List Char × β)) (k : List Char) (v : β) :
    (assocSet m k v).map Prod.fst =
      if k ∈ m.map Prod.fst then m.map Prod.fst else m.map Prod.fst ++ [k] := by
  induction m with
  | nil =>
    show ([(k, v)].map Prod.fst) = _
    simp
  | cons hd rest ih =>
    obtain ⟨k₀, w⟩ := hd
    by_cases h : k₀ = k
    · subst h
      rw [assocSet_cons, if_pos rfl, List.map_cons, List.map_cons,
        if_pos (List.mem_cons_self _ _)]
    · rw [assocSet_cons, if_neg h]
      have hne : ¬ k = k₀ := fun hc => h hc.symm
      rw [List.map_cons, List.map_cons, ih]
      by_cases hmem : k ∈ rest.map Prod.fst
      · rw [if_pos hmem, if_pos (by simp [hmem])]
      · rw [if_neg hmem, if_neg (by simp [hmem, hne]), List.cons_append]

theorem nodup_append_singleton {α : Type} (l : List α) (a : α)
    (hl : l.Nodup) (ha : a ∉ l) : (l ++ [a]).Nodup := by
  rw [List.nodup_append]
  exact ⟨hl, List.nodup_singleton a, by
    intro x hx hmem
    rw [List.mem_singleton] at hmem
    subst hmem
    exact ha hx⟩

theorem nodup_keys_assocSet {β : Type} (m : List (List Char × β))
    (k : List Char) (v : β) (h : (m.map Prod.fst).Nodup) :
    ((assocSet m k v).map Prod.fst).Nodup := by
  rw [keys_assocSet]
  by_cases hmem : k ∈ m.map Prod.fst
  · rwa [if_pos hmem]
  · rw [if_neg hmem]
    exact nodup_append_singleton _ _ h hmem

theorem nodup_keys_foldl_set {α β : Type} (key : α → List Char) (val : α → β)
    (l : List α) :
    ∀ init : List (List Char × β), (init.map Prod.fst).Nodup →
      (((l.foldl (fun items a => assocSet items (key a) (val a)) init)).map
        Prod.fst).Nodup := by
  induction l with
  | nil => intro init h; exact h
  | cons hd tl ih =>
    intro init h
    exact ih _ (nodup_keys_assocSet init (key hd) (val hd) h)

theorem mem_assocSet {β : Type} (m : List (List Char × β)) (k : List Char) (v : β) :
    ∀ pd ∈ assocSet m k v, pd ∈ m ∨ pd = (k, v) := by
  induction m with
  | nil => intro pd hpd; simp [assocSet] at hpd; exact Or.inr hpd
  | cons hd rest ih =>
    obtain ⟨k₀, w⟩ := hd
    intro pd hpd
    by_cases h : k₀ = k
    · subst h
      rw [assocSet, if_pos rfl] at hpd
      rcases List.mem_cons.mp hpd with rfl | hin
      · exact Or.inr rfl
      · exact Or.inl (List.mem_cons_of_mem _ hin)
    · rw [assocSet, if_neg h] at hpd
      rcases List.mem_cons.mp hpd with rfl | hin
      · exact Or.inl (List.mem_cons_self _ _)
      · rcases ih pd hin with hm | he
        · exact Or.inl (List.mem_cons_of_mem _ hm)
        · exact Or.inr he

theorem mem_foldl_set {α β : Type} (key : α → List Char) (val : α → β)
    (l : List α) :
    ∀ init, ∀ pd ∈ l.foldl (fun items a => assocSet items (key a) (val a)) init,
      pd ∈ init ∨ ∃ a ∈ l, pd.2 = val a := by
  induction l with
  | nil => intro init pd hpd; exact Or.inl hpd
  | cons hd tl ih =>
    intro init pd hpd
    rcases ih _ pd hpd with hin | ⟨a, ha, hv⟩
    · rcases mem_assocSet init (key hd) (val hd) pd hin with hm | he
      · exact Or.inl hm
      · exact Or.inr ⟨hd, List.mem_cons_self hd tl, by rw [he]⟩
    · exact Or.inr ⟨a, List.mem_cons_of_mem hd ha, hv⟩

theorem mergePage_find (fname : List Char) (parsed : List (List Char × PartialRec)) :
    ∀ (m : List (List Char × MergedRec)) (pid : List Char),
      assocFind (mergePage m parsed fname) pid =
        if (parsed.filter fun pd => decide (pd.1 = pid)) = [] then assocFind m pid
        else
          some (((parsed.filter fun pd => decide (pd.1 = pid)).map Prod.snd).foldl
            (fun e d => mergeRecord e d fname) ((assocFind m pid).getD emptyMerged)) := by
  induction parsed with
  | nil =>
    intro m pid
    have hnil : (List.filter (fun pd => decide (pd.1 = pid))
        ([] : List (List Char × PartialRec))) = [] := rfl
    rw [hnil, if_pos rfl]
    rfl
  | cons hd tl ih =>
    intro m pid
    obtain ⟨k, d⟩ := hd
    have hstep : mergePage m ((k, d) :: tl) fname =
        mergePage (assocSet m k (mergeRecord ((assocFind m k).getD emptyMerged) d fname))
          tl fname := rfl
    rw [hstep, ih]
    by_cases hk : k = pid
    · subst hk
      have hfind := assocFind_assocSet_self m k
        (mergeRecord ((assocFind m k).getD emptyMerged) d fname)
      have hfilter : ((k, d) :: tl).filter (fun pd => decide (pd.1 = k)) =
          (k, d) :: tl.filter (fun pd => decide (pd.1 = k)) := by
        simp [List.filter_cons]
      rw [hfilter]
      by_cases htl : (tl.filter fun pd => decide (pd.1 = k)) = []
      · rw [if_pos htl, htl, if_neg (List.cons_ne_nil _ _), hfind]
        rfl
      · rw [if_neg htl, if_neg (List.cons_ne_nil _ _), hfind, List.map_cons,
          List.foldl_cons]
        rfl
    · have hfind := assocFind_assocSet_ne m k
        (mergeRecord ((assocFind m k).getD emptyMerged) d fname) pid hk
      have hfilter : ((k, d) :: tl).filter (fun pd => decide (pd.1 = pid)) =
          tl.filter (fun pd => decide (pd.1 = pid)) := by
        simp [List.filter_cons, hk]
      rw [hfilter, hfind]

theorem appendUniquePrices_length (ps : List (List Char)) :
    ∀ acc : List (List Char),
      (appendUniquePrices acc ps).length ≤ acc.length + ps.length := by
  induction ps with
  | nil => intro acc; simp [appendUniquePrices]
  | cons p rest ih =>
    intro acc
    show (appendUniquePrices (if p ≠ [] ∧ p ∉ acc then acc ++ [p] else acc) rest).length ≤ _
    by_cases hp : p ≠ [] ∧ p ∉ acc
    · rw [if_pos hp]
      have h1 := ih (acc ++ [p])
      simp only [List.length_append, List.length_cons, List.length_nil] at h1 ⊢
      omega
    · rw [if_neg hp]
      have h1 := ih acc
      simp only [List.length_cons]
      omega

theorem mergeRecord_prices_length (e : MergedRec) (d : PartialRec) (fname : List Char) :
    (mergeRecord e d fname).prices.length ≤ e.prices.length + d.prices.length :=
  appendUniquePrices_length d.prices e.prices

theorem nodup_filter_key_length (parsed : List (List Char × PartialRec))
    (pid : List Char) :
    (parsed.map Prod.fst).Nodup →
      (parsed.filter fun pd => decide (pd.1 = pid)).length ≤ 1 := by
  induction parsed with
  | nil => intro _; simp
  | cons hd tl ih =>
    intro h
    obtain ⟨k, d⟩ := hd
    rw [List.map_cons] at h
    have hk : k ∉ tl.map Prod.fst := (List.nodup_cons.mp h).1
    have htl := (List.nodup_cons.mp h).2
    by_cases hkp : k = pid
    · subst hkp
      have hnil : (tl.filter fun pd => decide (pd.1 = k)) = [] := by
        rw [List.filter_eq_nil_iff]
        intro pd hpd
        simp only [decide_eq_true_eq]
        intro heq
        exact hk (heq ▸ List.mem_map_of_mem Prod.fst hpd)
      simp [List.filter_cons, hnil]
    · have hfilter : ((k, d) :: tl).filter (fun pd => decide (pd.1 = pid)) =
          tl.filter (fun pd => decide (pd.1 = pid)) := by
        simp [List.filter_cons, hkp]
      rw [hfilter]
      exact ih htl

theorem mergePage_prices_bound (fname : List Char)
    (parsed : List (List Char × PartialRec)) (m : List (List Char × MergedRec))
    (pid : List Char) (B : Nat)
    (hnodup : (parsed.map Prod.fst).Nodup)
    (hparsed : ∀ pd ∈ parsed, pd.2.prices.length ≤ 2)
    (hm : ∀ r, assocFind m pid = some r → r.prices.length ≤ B) :
    ∀ r, assocFind (mergePage m parsed fname) pid = some r →
      r.prices.length ≤ B + 2 := by
  intro r hr
  rw [mergePage_find] at hr
  by_cases hf : (parsed.filter fun pd => decide (pd.1 = pid)) = []
  · rw [if_pos hf] at hr
    exact le_trans (hm r hr) (Nat.le_add_right B 2)
  · rw [if_neg hf] at hr
    have hle := nodup_filter_key_length parsed pid hnodup
    have hpos : 0 < (parsed.filter fun pd => decide (pd.1 = pid)).length :=
      List.length_pos.mpr hf
    have hlen1 : (parsed.filter fun pd => decide (pd.1 = pid)).length = 1 := by omega
    obtain ⟨pd0, hpd0⟩ := List.length_eq_one.mp hlen1
    rw [hpd0] at hr
    have hseed : ((assocFind m pid).getD emptyMerged).prices.length ≤ B := by
      cases hmf : assocFind m pid with
      | some r0 => simpa using hm r0 hmf
      | none => simp [emptyMerged]
    have hmem0 : pd0 ∈ parsed :=
      List.mem_of_mem_filter (hpd0 ▸ List.mem_singleton_self pd0)
    have hp2 : pd0.2.prices.length ≤ 2 := hparsed pd0 hmem0
    have hrr : r = mergeRecord ((assocFind m pid).getD emptyMerged) pd0.2 fname :=
      (Option.some_inj.mp hr).symm
    rw [hrr]
    calc (mergeRecord ((assocFind m pid).getD emptyMerged) pd0.2 fname).prices.length
        ≤ ((assocFind m pid).getD emptyMerged).prices.length + pd0.2.prices.length :=
          mergeRecord_prices_length _ _ _
      _ ≤ B + 2 := Nat.add_le_add hseed hp2

theorem grokRecordAt_prices_le (raw : List Char) (m : Nat × Nat × List Char) :
    (grokRecordAt raw m).prices.length ≤ 2 := by
  have heq : (grokRecordAt raw m).prices =
      (dedupNonEmptyAux []
        ((findPrices (sliceWindow raw m.1 m.2.1 4000)).map cleanText)).take 2 := by
    with_reducible rfl
  rw [heq]
  exact List.length_take_le 2 _

theorem parseHtmlFallback_keys_nodup (raw : List Char) :
    ((parseHtmlFallback raw).map Prod.fst).Nodup := by
  show (List.map Prod.fst
    ((productIdMatches raw).foldl
      (fun items a => assocSet items a.2.2 (grokRecordAt raw a)) [])).Nodup
  exact nodup_keys_foldl_set (fun m => m.2.2) (grokRecordAt raw)
    (productIdMatches raw) [] List.nodup_nil

theorem parseHtmlFallback_mem_prices_le (raw : List Char) :
    ∀ pd ∈ parseHtmlFallback raw, pd.2.prices.length ≤ 2 := by
  intro pd hpd
  have hpd2 : pd ∈ (productIdMatches raw).foldl
      (fun items a => assocSet items a.2.2 (grokRecordAt raw a)) [] := hpd
  rcases mem_foldl_set (fun m => m.2.2) (grokRecordAt raw) (productIdMatches raw)
      [] pd hpd2 with h0 | ⟨a, _, hv⟩
  · cases h0
  · rw [hv]
    exact grokRecordAt_prices_le raw a

theorem parseAll_prices_bound_aux (pages : List (List Char × List Char)) :
    ∀ (init : List (List Char × MergedRec)) (B : Nat),
      (∀ pid r, assocFind init pid = some r → r.prices.length ≤ B) →
      ∀ pid r,
        assocFind
          (pages.foldl
            (fun merged page => mergePage merged (parseHtmlFallback page.2) page.1)
            init) pid = some r →
        r.prices.length ≤ B + 2 * pages.length := by
  induction pages with
  | nil =>
    intro init B h pid r hr
    have := h pid r hr
    simpa using this
  | cons pg rest ih =>
    intro init B h pid r hr
    rw [List.foldl_cons] at hr
    have hstep : ∀ pid' r',
        assocFind (mergePage init (parseHtmlFallback pg.2) pg.1) pid' = some r' →
          r'.prices.length ≤ B + 2 := by
      intro pid' r' hr'
      exact mergePage_prices_bound pg.1 _ init pid' B
        (parseHtmlFallback_keys_nodup pg.2)
        (parseHtmlFallback_mem_prices_le pg.2) (h pid') r' hr'
    have := ih (mergePage init (parseHtmlFallback pg.2) pg.1) (B + 2) hstep pid r hr
    simp only [List.length_cons]
    omega

/-- C1 (amended): each page's extracted record holds at most 2 prices,
and a record of the run-wide merged mapping holds at most 2 prices per
contributing page; the cap of 2 is not maintained by the merge itself. -/
theorem price_cap_per_page_and_run :
    (∀ (raw pid : List Char) (d : PartialRec),
        assocFind (parseHtmlFallback raw) pid = some d → d.prices.length ≤ 2) ∧
    (∀ (pages : List (List Char × List Char)) (pid : List Char) (r : MergedRec),
        assocFind (parseAllHtmlFiles pages) pid = some r →
        r.prices.length ≤ 2 * pages.length) := by
  constructor
  · intro raw pid d h
    have h2 : assocFind ((productIdMatches raw).foldl
        (fun items a => assocSet items a.2.2 (grokRecordAt raw a)) []) pid =
          some d := h
    obtain ⟨a, _, _, hv⟩ := assocFind_foldl_set_val (fun m => m.2.2)
      (grokRecordAt raw) (productIdMatches raw) pid d h2
    rw [hv]
    exact grokRecordAt_prices_le raw a
  · intro pages pid r h
    have := parseAll_prices_bound_aux pages [] 0
      (fun pid' r' hr' => by cases hr') pid r h
    simpa using this

/-- C1 counterexample: a two-page run in which both pages contribute two
distinct prices to the same identifier; the merged record then holds
four prices, so the cap of 2 does not hold at every point of a run. -/
theorem merge_cap_counterexample :
    ((assocFind (parseAllHtmlFiles
        [("a.html".data, "/product/a-1 10 ₽ 20 ₽".data),
         ("b.html".data, "/product/a-1 30 ₽ 40 ₽".data)]) ['1']).map
      (fun r => r.prices.length)) = some 4 := by decide

/-- Witness for the amended C1 theorem on the page parse of the first
counterexample page. -/
theorem price_cap_per_page_and_run_witness :
    (PartialRec.mk [] []
        [['1', '0', ' ', '₽'], ['2', '0', ' ', '₽']]).prices.length ≤ 2 :=
  price_cap_per_page_and_run.1 "/product/a-1 10 ₽ 20 ₽".data ['1']
    (PartialRec.mk [] [] [['1', '0', ' ', '₽'], ['2', '0', ' ', '₽']]) (by decide)

/-- C5 (amended): in the class-based pattern strategy, exclusion of the
recommended-items region is by byte-range excision — an identifier is in
the page's result mapping exactly when the product-id pattern matches it
in the marker-excised text; window containment of the marker is not the
governing criterion, and the merge-pipeline fallback performs no marker
exclusion at all. -/
theorem marker_excision_byte_range (raw pid : List Char) :
    (∃ it, assocFind (parseHtmlFallbackHPItems raw) pid = some it) ↔
      ∃ t ∈ productIdMatchesHP (exciseMarker raw), t.2.2 = pid := by
  have hiff :
      (assocFind ((productIdMatchesHP (exciseMarker raw)).foldl
        (fun items a => assocSet items a.2.2 (hpItemAt (exciseMarker raw) a)) [])
          pid).isSome = true ↔
        ∃ t ∈ productIdMatchesHP (exciseMarker raw), t.2.2 = pid :=
    assocFind_foldl_set_isSome (fun t => t.2.2) (hpItemAt (exciseMarker raw))
      (productIdMatchesHP (exciseMarker raw)) pid
  have hsame :
      (assocFind (parseHtmlFallbackHPItems raw) pid).isSome = true ↔
        ∃ t ∈ productIdMatchesHP (exciseMarker raw), t.2.2 = pid := hiff
  rw [← hsame, Option.isSome_iff_exists]

/-- C5 counterexample: a page whose single product-id match has the
recommended-items marker inside its search window, yet the identifier is
present in the merge-pipeline fallback's result mapping. -/
theorem window_marker_counterexample :
    productIdMatches (markerText ++ "/product/a-5".data) = [(24, 36, ['5'])] ∧
    markerText.isPrefixOf
      (sliceWindow (markerText ++ "/product/a-5".data) 24 36 4000) = true ∧
    (assocFind (parseHtmlFallback (markerText ++ "/product/a-5".data)) ['5']).isSome
      = true := by decide

theorem takeWhile_all (p : Char → Bool) :
    ∀ l : List Char, (l.takeWhile p).all p = true := by
  intro l
  induction l with
  | nil => rfl
  | cons c rest ih =>
    rw [List.takeWhile_cons]
    by_cases hc : p c = true
    · rw [if_pos hc]
      simp [hc, ih]
    · rw [if_neg hc]
      rfl

theorem lastDashDigits_digits :
    ∀ (run : List Char) (n : Nat) (ds : List Char),
      lastDashDigits run = some (n, ds) → ds ≠ [] ∧ ds.all Char.isDigit = true := by
  intro run
  induction run with
  | nil => intro n ds h; cases h
  | cons c cs ih =>
    intro n ds h
    rw [lastDashDigits] at h
    cases hrec : lastDashDigits cs with
    | some r =>
      obtain ⟨n0, ds0⟩ := r
      rw [hrec] at h
      have h3 : some (n0 + 1, ds0) = some (n, ds) := h
      have hds : ds0 = ds := by cases h3; rfl
      rw [← hds]
      exact ih n0 ds0 hrec
    | none =>
      rw [hrec] at h
      by_cases hc : (c == '-') = true
      · rw [if_pos hc] at h
        by_cases hds : cs.takeWhile Char.isDigit ≠ []
        · rw [if_pos hds] at h
          cases h
          exact ⟨hds, takeWhile_all Char.isDigit cs⟩
        · rw [if_neg hds] at h
          cases h
      · rw [if_neg hc] at h
        cases h

theorem tryProductAlt_digits (lit l : List Char) (n : Nat) (ds : List Char)
    (h : tryProductAlt lit l = some (n, ds)) :
    ds ≠ [] ∧ ds.all Char.isDigit = true := by
  rw [tryProductAlt] at h
  by_cases hs : startsWithCI lit l = true
  · rw [if_pos hs] at h
    cases hld : lastDashDigits ((l.drop lit.length).takeWhile notAttrEnd) with
    | some r =>
      obtain ⟨n0, ds0⟩ := r
      rw [hld] at h
      have h3 : some (lit.length + n0, ds0) = some (n, ds) := h
      have hds : ds0 = ds := by cases h3; rfl
      rw [← hds]
      exact (lastDashDigits_digits _ n0 ds0 hld)
    | none =>
      rw [hld] at h
      cases h
  · rw [if_neg hs] at h
    cases h

theorem matchProductIdGrok_digits (l : List Char) (n : Nat) (ds : List Char)
    (h : matchProductIdGrok l = some (n, ds)) :
    ds ≠ [] ∧ ds.all Char.isDigit = true := by
  rw [matchProductIdGrok] at h
  cases h1 : tryProductAlt "/product/".data l with
  | some r =>
    obtain ⟨n0, ds0⟩ := r
    rw [h1] at h
    have h3 : some (n0, ds0) = some (n, ds) := h
    have hds : ds0 = ds := by cases h3; rfl
    rw [← hds]
    exact tryProductAlt_digits _ _ n0 ds0 h1
  | none =>
    rw [h1] at h
    exact tryProductAlt_digits _ _ n ds h

theorem matchProductIdHP_digits (l : List Char) (n : Nat) (ds : List Char)
    (h : matchProductIdHP l = some (n, ds)) :
    ds ≠ [] ∧ ds.all Char.isDigit = true :=
  tryProductAlt_digits _ _ n ds h

theorem productIdScan_digits
    (matchAt : List Char → Option (Nat × List Char))
    (hm : ∀ l n ds, matchAt l = some (n, ds) → ds ≠ [] ∧ ds.all Char.isDigit = true) :
    ∀ (fuel pos : Nat) (l : List Char),
      ∀ t ∈ productIdScan matchAt fuel pos l,
        t.2.2 ≠ [] ∧ t.2.2.all Char.isDigit = true := by
  intro fuel
  induction fuel with
  | zero => intro pos l t ht; cases ht
  | succ f ih =>
    intro pos l t ht
    cases l with
    | nil => cases ht
    | cons c rest =>
      rw [productIdScan] at ht
      cases hmt : matchAt (c :: rest) with
      | some r =>
        obtain ⟨len, ds⟩ := r
        rw [hmt] at ht
        rcases List.mem_cons.mp ht with rfl | ht'
        · exact hm (c :: rest) len ds hmt
        · exact ih (pos + len) ((c :: rest).drop len) t ht'
      | none =>
        rw [hmt] at ht
        exact ih (pos + 1) rest t ht

theorem decValue?_of_digits (pid : List Char) (h1 : pid ≠ [])
    (h2 : pid.all Char.isDigit = true) : decValue? pid = some (pidKey pid) := by
  rw [decValue?, if_neg h1, if_pos h2]

/-- C10: every identifier key produced by the pattern/window strategies
(and by the shared product-URL capture used by the structured-tree
strategy) is a non-empty string of decimal digits, so the gate's numeric
sort key is defined and equals the decimal value of the identifier. -/
theorem extractor_keys_numeric :
    (∀ (raw pid : List Char) (d : PartialRec),
        assocFind (parseHtmlFallback raw) pid = some d →
        pid ≠ [] ∧ pid.all Char.isDigit = true ∧
          decValue? pid = some (pidKey pid)) ∧
    (∀ (raw pid : List Char) (it : HPItem),
        assocFind (parseHtmlFallbackHPItems raw) pid = some it →
        pid ≠ [] ∧ pid.all Char.isDigit = true ∧
          decValue? pid = some (pidKey pid)) ∧
    (∀ l : List Char, ∀ t ∈ productIdMatches l,
        t.2.2 ≠ [] ∧ t.2.2.all Char.isDigit = true) := by
  have hscanG := productIdScan_digits matchProductIdGrok matchProductIdGrok_digits
  have hscanHP := productIdScan_digits matchProductIdHP matchProductIdHP_digits
  refine ⟨?_, ?_, ?_⟩
  · intro raw pid d h
    have h2 : assocFind ((productIdMatches raw).foldl
        (fun items a => assocSet items a.2.2 (grokRecordAt raw a)) []) pid =
          some d := h
    obtain ⟨a, ha, hk, -⟩ := assocFind_foldl_set_val (fun t => t.2.2)
      (grokRecordAt raw) (productIdMatches raw) pid d h2
    obtain ⟨hne, hdig⟩ := hscanG raw.length 0 raw a ha
    rw [hk] at hne hdig
    exact ⟨hne, hdig, decValue?_of_digits pid hne hdig⟩
  · intro raw pid it h
    have h2 : assocFind ((productIdMatchesHP (exciseMarker raw)).foldl
        (fun items a => assocSet items a.2.2 (hpItemAt (exciseMarker raw) a)) [])
          pid = some it := h
    obtain ⟨a, ha, hk, -⟩ := assocFind_foldl_set_val (fun t => t.2.2)
      (hpItemAt (exciseMarker raw)) (productIdMatchesHP (exciseMarker raw))
      pid it h2
    obtain ⟨hne, hdig⟩ := hscanHP (exciseMarker raw).length 0 (exciseMarker raw) a ha
    rw [hk] at hne hdig
    exact ⟨hne, hdig, decValue?_of_digits pid hne hdig⟩
  · intro l t ht
    exact hscanG l.length 0 l t ht

/-- Witness for C10 at a concrete page. -/
theorem extractor_keys_numeric_witness :
    ['7'] ≠ [] ∧ (['7'].all Char.isDigit) = true ∧
      decValue? ['7'] = some (pidKey ['7']) :=
  extractor_keys_numeric.1 "/product/a-7".data ['7'] (PartialRec.mk [] [] [])
    (by decide)

/-- C9: the text normalizer is a total function agreeing with the
specification's description — empty for empty input, and otherwise
trim, replace the non-breaking-space code points by ordinary spaces and
collapse whitespace runs; checked also on the specification's example. -/
theorem normalizer_matches_spec :
    cleanText [] = [] ∧ (∀ l : List Char, cleanText l = cleanTextSpec l) ∧
    cleanText "  a\u00A0\u00A0b  ".data = "a b".data := by
  refine ⟨rfl, ?_, by decide⟩
  intro l
  rw [cleanText, cleanTextSpec]
  by_cases hl : l = []
  · rw [if_pos hl, if_pos hl]
  · rw [if_neg hl, if_neg hl, collapseWs_replNbspRuns, collapseWs_map_nbsp]

/-- C2 counterexample: an item whose `sku` field is present but empty
while `id` is non-empty is rejected — the `id` field is not consulted,
because `dict.get` only falls back when the key is absent. -/
theorem json_ident_counterexample :
    itemIdent [("sku", Json.str ""), ("id", Json.str "123")] = "" ∧
    pyTruthy (Json.str "123") = true ∧
    (parseProductItem [("sku", Json.str ""), ("id", Json.str "123")]).isNone
      = true := by
  refine ⟨rfl, by decide, rfl⟩

/-- C2 (amended): the identifier is the stringification of the stored
`sku` value whenever the `sku` key is present (its value may be empty or
null); only when the key is absent is `id` consulted; the item yields no
record exactly when that identifier stringifies empty or the link
qualification raises. -/
theorem json_ident_semantics :
    (∀ (item : List (String × Json)) (v : Json),
        jsonFind? item "sku" = some v → itemIdent item = pyStr v) ∧
    (∀ item : List (String × Json), jsonFind? item "sku" = none →
        itemIdent item = pyStr (jsonGet item "id" (Json.str ""))) ∧
    (∀ item : List (String × Json),
        parseProductItem item = none ↔
          itemIdent item = "" ∨ linkOf item = none) := by
  refine ⟨?_, ?_, ?_⟩
  · intro item v h
    rw [itemIdent, jsonGet]
    rw [jsonFind?] at h
    cases hf : item.find? (fun kv => kv.1 == "sku") with
    | some kv =>
      rw [hf] at h
      have h2 : kv.2 = v := Option.some_inj.mp h
      rw [← h2]
    | none =>
      rw [hf] at h
      cases h
  · intro item h
    rw [itemIdent, jsonGet]
    rw [jsonFind?] at h
    cases hf : item.find? (fun kv => kv.1 == "sku") with
    | some kv =>
      rw [hf] at h
      cases h
    | none => rfl
  · intro item
    rw [parseProductItem]
    by_cases hid : itemIdent item = ""
    · rw [if_pos hid]
      simp [hid]
    · rw [if_neg hid]
      cases hl : linkOf item with
      | some link =>
        simp only [hl]
        constructor
        · intro h
          cases h
        · rintro (h | h)
          · exact absurd h hid
          · cases h
      | none =>
        simp [hl]

/-- Witness for the amended C2 theorem: a present `sku` key wins. -/
theorem json_ident_semantics_witness :
    itemIdent [("sku", Json.str "42"), ("id", Json.str "7")] =
      pyStr (Json.str "42") :=
  json_ident_semantics.1 [("sku", Json.str "42"), ("id", Json.str "7")]
    (Json.str "42") rfl

/-- C8 counterexample: when the nested array's element 0 carries an
empty `text`, the parser falls through to the flat alias fields instead
of returning the element-0 text. -/
theorem json_price_counterexample :
    extractPrices
      [("price", Json.obj
        [("price", Json.arr [Json.obj [("text", Json.str "")]]),
         ("text", Json.str "100 ₽")])] = ("100 ₽", "") := by decide

/-- C8 (amended): when `price.price` is an array whose element 0 is an
object with a non-empty string `text`, the current price equals that
text — taking priority over any flat alias fields — and when element 1
is also an object with a non-empty string `text`, the original price
equals element 1's text. -/
theorem json_nested_price (item o e0 : List (String × Json)) (rest : List Json)
    (t0 : String)
    (hprice : jsonGet item "price" (Json.obj []) = Json.obj o)
    (harr : jsonGet o "price" Json.null = Json.arr (Json.obj e0 :: rest))
    (ht0 : jsonGet e0 "text" (Json.str "") = Json.str t0)
    (hne : t0 ≠ "") :
    (extractPrices item).1 = t0 ∧
    (∀ (e1 : List (String × Json)) (rest2 : List Json) (t1 : String),
        rest = Json.obj e1 :: rest2 →
        jsonGet e1 "text" (Json.str "") = Json.str t1 → t1 ≠ "" →
        (extractPrices item).2 = t1) := by
  constructor
  · simp [extractPrices, hprice, harr, ht0, hne, jsonFields, jsonArr, pyIsDict,
      pyIsList, numFmt, pyIsNum, pyStr, pyTruthy]
  · intro e1 rest2 t1 hrest ht1 hne1
    subst hrest
    have hlen : 1 < (Json.obj e0 :: Json.obj e1 :: rest2).length := by
      simp [List.length_cons]
    simp [extractPrices, hprice, harr, ht0, hne, ht1, hne1, hlen, jsonFields,
      jsonArr, pyIsDict, pyIsList, numFmt, pyIsNum, pyStr, pyTruthy]

/-- Witness for the amended C8 theorem: the specification's example
yields current price 299 ₽ and original price 399 ₽. -/
theorem json_nested_price_witness :
    (extractPrices
      [("price", Json.obj
        [("price", Json.arr
          [Json.obj [("text", Json.str "299 ₽")],
           Json.obj [("text", Json.str "399 ₽")]])])]).1 = "299 ₽" ∧
    (extractPrices
      [("price", Json.obj
        [("price", Json.arr
          [Json.obj [("text", Json.str "299 ₽")],
           Json.obj [("text", Json.str "399 ₽")]])])]).2 = "399 ₽" :=
  ⟨(json_nested_price
      [("price", Json.obj
        [("price", Json.arr
          [Json.obj [("text", Json.str "299 ₽")],
           Json.obj [("text", Json.str "399 ₽")]])])]
      [("price", Json.arr
        [Json.obj [("text", Json.str "299 ₽")],
         Json.obj [("text", Json.str "399 ₽")]])]
      [("text", Json.str "299 ₽")] [Json.obj [("text", Json.str "399 ₽")]]
      "299 ₽" rfl rfl rfl (by decide)).1,
   (json_nested_price
      [("price", Json.obj
        [("price", Json.arr
          [Json.obj [("text", Json.str "299 ₽")],
           Json.obj [("text", Json.str "399 ₽")]])])]
      [("price", Json.arr
        [Json.obj [("text", Json.str "299 ₽")],
         Json.obj [("text", Json.str "399 ₽")]])]
      [("text", Json.str "299 ₽")] [Json.obj [("text", Json.str "399 ₽")]]
      "299 ₽" rfl rfl rfl (by decide)).2
      [("text", Json.str "399 ₽")] [] "399 ₽" rfl rfl (by decide)⟩

end Pipeline
